import Mathlib

/-!
Verification of the pr-train repository core against its specification.

Strings are modelled as lists of characters (`Str`).  The JavaScript string
operations used by the source (literal-regex search, greedy replacement with
`$`-substitution, `trim`, `filter(Boolean)`, truthiness) are embedded
explicitly below, and each source function is translated definition by
definition.  External effects (git subprocesses, the GitHub API, prompts)
are modelled as oracle fields of explicit environment structures, and the
side-effecting functions are re-expressed as pure functions returning the
sequence of external commands they issue.
-/

/-- Strings as lists of characters. -/
abbrev Str := List Char

/-- Coerce a Lean string literal to the character-list model. -/
def str (s : String) : Str := s.data

/-- The opening sentinel marker of the navigation block. -/
def openTag : Str := str "<pr-train-toc>"

/-- The closing sentinel marker of the navigation block. -/
def closeTag : Str := str "</pr-train-toc>"

/-- Boolean prefix test on character lists (JS `startsWith` at an offset). -/
def pfxB : Str → Str → Bool
  | [], _ => true
  | _ :: _, [] => false
  | a :: as, b :: bs => a == b && pfxB as bs

/-- All positions of `hay` at which `needle` occurs (as a prefix of the
remaining suffix), in increasing order. -/
def matchPositions (needle hay : Str) : List Nat :=
  (List.range (hay.length + 1)).filter (fun k => pfxB needle (hay.drop k))

/-- Substring containment, as tested by `body.match(/<pr-train-toc>/)`. -/
def containsB (needle hay : Str) : Bool :=
  (List.range (hay.length + 1)).any (fun k => pfxB needle (hay.drop k))

/-- The region matched by the JS regex `<pr-train-toc>[^]*<\/pr-train-toc>`:
the leftmost possible start is the first occurrence of the opening tag, and
the greedy `[^]*` extends the match to the last occurrence of the closing
tag lying at or after the end of the opening tag.  Returns the half-open
character range of the whole match, or `none` when the regex does not match. -/
def tocMatchRegion (hay : Str) : Option (Nat × Nat) :=
  match (matchPositions openTag hay).head? with
  | none => none
  | some i =>
    match ((matchPositions closeTag hay).filter
        (fun j => decide (i + openTag.length ≤ j))).getLast? with
    | none => none
    | some j => some (i, j + closeTag.length)

/-- ECMAScript `GetSubstitution` for a string replacement and a regex with no
capture groups: `$$`, `$&` (code 38), `` $` `` (code 96) and `$'` (code 39)
are special; every other character, and `$` before any other character, is
literal.  `matched`, `pre` and `post` are the matched region and the text
before and after it. -/
def expandReplacement : Str → Str → Str → Str → Str
  | [], _, _, _ => []
  | c :: rest, matched, pre, post =>
    if c.toNat == 36 then
      match rest with
      | [] => [c]
      | d :: rest2 =>
        if d.toNat == 36 then c :: expandReplacement rest2 matched pre post
        else if d.toNat == 38 then matched ++ expandReplacement rest2 matched pre post
        else if d.toNat == 96 then pre ++ expandReplacement rest2 matched pre post
        else if d.toNat == 39 then post ++ expandReplacement rest2 matched pre post
        else c :: d :: expandReplacement rest2 matched pre post
    else c :: expandReplacement rest matched pre post

/-- JS `body.replace(/<pr-train-toc>[^]*<\/pr-train-toc>/, repl)`: replace
the (single, greedy) regex match by the expanded replacement; if the regex
does not match, return the body unchanged. -/
def replaceToc (repl hay : Str) : Str :=
  match tocMatchRegion hay with
  | none => hay
  | some (i, e) =>
    hay.take i ++
      expandReplacement repl ((hay.drop i).take (e - i)) (hay.take i) (hay.drop e) ++
      hay.drop e

/-- Embedding of `upsertNavigationInBody` (src/src/github.ts, lines 274-284):
an empty (falsy) body yields the navigation alone; a body containing the
opening marker goes through the regex replacement; otherwise the navigation
is appended after a newline. -/
def upsertNavigationInBody (newNavigation body : Str) : Str :=
  if body.isEmpty then newNavigation
  else if containsB openTag body then replaceToc newNavigation body
  else body ++ '\n' :: newNavigation

/-- The replacement string contains no dollar character (code 36), so JS
`$`-substitution leaves it unchanged. -/
def noDollar (s : Str) : Prop := ∀ c ∈ s, c.toNat ≠ 36

instance (s : Str) : Decidable (noDollar s) := by
  unfold noDollar; infer_instance

/-- Error thrown by simple-git checkout/merge/rebase: the `conflicts` field
is either absent (`none`) or a list of conflicted paths. -/
structure GitError where
  conflicts : Option (List Str)
deriving DecidableEq, Repr

/-- Embedding of `combineBranches` (src/unnamed/part_000, lines 142-159, and
identically src/src/index.ts, lines 51-69).  `try1` and `try2` are the
outcomes of the first and second checkout-plus-merge/rebase attempt.  The
source retries once only when the caught error has no conflicts or an empty
conflict list; an error with a non-empty conflict list is caught and the
function then falls through the catch block and resolves normally. -/
def combineBranches (try1 try2 : Except GitError Unit) : Except GitError Unit :=
  match try1 with
  | .ok _ => .ok ()
  | .error e =>
    match e.conflicts with
    | none => try2
    | some [] => try2
    | some (_ :: _) => .ok ()

/-- The argument list passed to `sg.raw` by `pushBranches`
(src/unnamed/part_000, lines 169-180, and src/src/index.ts, lines 80-88):
`['push', ...(force ? ['--force'] : []), remote].concat(branches)` with
empty strings filtered out. -/
def pushArgs (branches : List Str) (forcePush : Bool) (remote : Str) : List Str :=
  ((str "push" :: (if forcePush then [str "--force"] else []) ++ [remote]) ++ branches).filter
    (fun s => !s.isEmpty)

/-- The git commands issued by `pushBranches`: the source unconditionally
makes exactly one `sg.raw` call with `pushArgs`. -/
def pushBranchesCommands (branches : List Str) (forcePush : Bool) (remote : Str) :
    List (List Str) :=
  [pushArgs branches forcePush remote]

/-- The combine operations performed by `reflowTrain`
(src/unnamed/part_000, lines 530-543, and the analogous loop in
src/src/index.ts, lines 404-413): for each `i` from `0` to `length - 2`, the
pair of branches at `i` and `i + 1` is combined unless the ancestor test
`g` already holds for it.  `g` is the oracle for
`git merge-base --is-ancestor`. -/
def reflowSteps (g : Str → Str → Bool) (branches : List Str) : List (Str × Str) :=
  (List.range (branches.length - 1)).filterMap (fun i =>
    let b1 := branches.getD i []
    let b2 := branches.getD (i + 1) []
    if g b1 b2 then none else some (b1, b2))

/-- Embedding of `rangeStringToRange`'s regex
`(?<start>\d+)\.\.(?<end>\d+)` matched at one position: a maximal nonempty
digit run, the literal `..`, then a maximal nonempty digit run. -/
def matchRangeAt (s : Str) : Option (Str × Str) :=
  let d1 := s.takeWhile (fun c => c.isDigit)
  if d1.isEmpty then none
  else
    let rest := s.drop d1.length
    if pfxB (str "..") rest then
      let d2 := (rest.drop 2).takeWhile (fun c => c.isDigit)
      if d2.isEmpty then none else some (d1, d2)
    else none

/-- Leftmost regex search: try `matchRangeAt` at each position left to right. -/
def findRangeMatch : Str → Option (Str × Str)
  | [] => none
  | c :: rest =>
    match matchRangeAt (c :: rest) with
    | some r => some r
    | none => findRangeMatch rest

/-- JS `parseInt` on a nonempty all-digit string. -/
def parseDigits (s : Str) : Nat :=
  s.foldl (fun a c => a * 10 + (c.toNat - 48)) 0

/-- Embedding of `rangeStringToRange` (src/unnamed/part_000, lines 377-384):
`none` models the thrown `Error` when the regex does not match; otherwise
the inclusive `<start>..<end>` is returned as the half-open pair
`[start, end + 1]`. -/
def rangeStringToRange (rangeString : Str) : Option (Nat × Nat) :=
  match findRangeMatch rangeString with
  | none => none
  | some (s, e) => some (parseDigits s, parseDigits e + 1)

/-- JS `Array.prototype.slice(a, b)` for `0 ≤ a ≤ b`. -/
def sliceList (l : List Str) (a b : Nat) : List Str :=
  (l.take b).drop a

/-- Index argument accepted by `branchNameAtIndex`: a numeric index or the
literal string `"combined"`. -/
inductive BranchIndex where
  | idx (i : Nat)
  | combined
deriving DecidableEq, Repr

/-- Embedding of `PRTrainClient.branchNameAtIndex` (src/unnamed/part_000,
lines 442-454).  The selected entry is `undefined` (`none`) for an
out-of-range index or a missing combined branch; the source then tests JS
falsiness (`!branch`), so both `undefined` and the empty string lead to
`process.exit(3)`, modelled as `.error 3`. -/
def branchNameAtIndex (sortedTrainBranches : List Str)
    (combinedTrainBranch : Option Str) (i : BranchIndex) : Except Nat Str :=
  let branch : Option Str :=
    match i with
    | .combined => combinedTrainBranch
    | .idx n => sortedTrainBranches.get? n
  match branch with
  | none => .error 3
  | some b => if b.isEmpty then .error 3 else .ok b

/-- A PR message as produced by `constructPrMsg` or
`getCombinedBranchPrMsg`. -/
structure PullRequestMessage where
  title : Str
  body : Str
deriving DecidableEq, Repr

/-- The remote's view of a PR: the fields of the GitHub API response the
source reads (`title`, `body`, `number`). -/
structure PrInfo where
  title : Str
  body : Str
  number : Nat
deriving DecidableEq, Repr

/-- One entry of the `prDict` built in pass 1 of `ensurePrsExist`
(src/src/github.ts, lines 155-160). -/
structure PrRecord where
  body : Str
  title : Str
  pr : Nat
  updating : Bool
deriving DecidableEq, Repr

/-- A remote API call issued by `ensurePrsExist`. -/
inductive SyncAction where
  | create (head base title body : Str) (draft : Bool)
  | update (pr : Nat) (title base body : Str)
  | requestReviewers (pr : Nat) (reviewers : List Str)
deriving DecidableEq, Repr

/-- Environment of `GitHubClient.ensurePrsExist`: the train parameters plus
oracles for the external collaborators (git log via `prMsg`, the remote
head-branch PR lookup via `existingPr`, and the remote's response to a PR
creation via `createdPr`). -/
structure SyncEnv where
  combinedBranch : Option Str
  combinedBranchTitle : Str
  stableBranch : Str
  prMsg : Str → PullRequestMessage
  existingPr : Str → Option PrInfo
  createdPr : Str → PrInfo
  draft : Bool
  reviewers : List Str

/-- The desired title/body for a branch: the user-supplied combined title
with an empty body for the combined branch, otherwise `constructPrMsg`
(src/src/github.ts, lines 84-87 and 33-40). -/
def desiredPrMsg (env : SyncEnv) (branch : Str) : PullRequestMessage :=
  if some branch = env.combinedBranch then ⟨env.combinedBranchTitle, []⟩
  else env.prMsg branch

/-- The base computed for the branch at `index`
(src/src/github.ts, line 127 and identically line 180):
`index === 0 || branch === combinedBranch ? stableBranch : allBranches[index - 1]`. -/
def baseFor (env : SyncEnv) (allBranches : List Str) (index : Nat) (branch : Str) : Str :=
  if index = 0 ∨ some branch = env.combinedBranch then env.stableBranch
  else allBranches.getD (index - 1) []

/-- Pass 1 of `ensurePrsExist` (src/src/github.ts, lines 121-162): walk the
branches in order building the branch-to-PR dictionary; for a branch whose
head-branch lookup finds a PR, adopt the remote response and mark it
`updating`; otherwise issue a create call and adopt the creation response. -/
def pass1 (env : SyncEnv) (allBranches : List Str) :
    Nat → List Str → List (Str × PrRecord) × List SyncAction
  | _, [] => ([], [])
  | index, branch :: rest =>
    let msg := desiredPrMsg env branch
    let base := baseFor env allBranches index branch
    let step : PrRecord × List SyncAction :=
      match env.existingPr branch with
      | some resp => (⟨resp.body, resp.title, resp.number, true⟩, [])
      | none =>
        let resp := env.createdPr branch
        (⟨resp.body, resp.title, resp.number, false⟩,
          [SyncAction.create branch base msg.title msg.body env.draft])
    let next := pass1 env allBranches (index + 1) rest
    ((branch, step.1) :: next.1, step.2 ++ next.2)

/-- First-match association lookup, modelling `prDict[branch]`. -/
def lookupRec (dict : List (Str × PrRecord)) (branch : Str) : Option PrRecord :=
  match dict with
  | [] => none
  | (b, r) :: rest => if b = branch then some r else lookupRec rest branch

/-- JS `String.prototype.trim`. -/
def trimStr (s : Str) : Str :=
  ((s.dropWhile (fun c => c.isWhitespace)).reverse.dropWhile
    (fun c => c.isWhitespace)).reverse

/-- Decimal rendering of a PR number, as interpolated by `#${...}`. -/
def natToStr (n : Nat) : Str := (toString n).data

/-- Embedding of `constructTrainNavigation` (src/src/github.ts,
lines 227-242). -/
def constructTrainNavigation (branchToPrDict : List (Str × PrRecord))
    (currentBranch : Str) (combinedBranch : Option Str) : Str :=
  let contents := str "<pr-train-toc>\n\n#### PR chain:\n"
  let contents := branchToPrDict.foldl (fun output p =>
    let branch := p.1
    let maybeHandRight := if branch = currentBranch then str "👉 " else []
    let maybeHandLeft := if branch = currentBranch then str " 👈 **YOU ARE HERE**" else []
    let combinedInfo :=
      if some branch = combinedBranch then str " **[combined branch]** " else str " "
    (output ++ maybeHandRight ++ str "#" ++ natToStr p.2.pr ++ combinedInfo ++
      str "(" ++ trimStr p.2.title ++ str ")" ++ maybeHandLeft) ++ [Char.ofNat 10])
    contents
  contents ++ str "\n</pr-train-toc>"

/-- Pass 2 of `ensurePrsExist` (src/src/github.ts, lines 167-197): for each
branch, keep the stored title/body when the PR pre-existed (otherwise the
locally computed message), recompute the base by the same rule, upsert the
navigation block into the body, and issue the update (and, when reviewers
were requested, a review-request call). -/
def pass2 (env : SyncEnv) (allBranches : List Str) (dict : List (Str × PrRecord)) :
    Nat → List Str → List SyncAction
  | _, [] => []
  | index, branch :: rest =>
    let prInfo := (lookupRec dict branch).getD ⟨[], [], 0, false⟩
    let msg : PullRequestMessage :=
      if prInfo.updating then ⟨prInfo.title, prInfo.body⟩ else desiredPrMsg env branch
    let base := baseFor env allBranches index branch
    let navigation := constructTrainNavigation dict branch env.combinedBranch
    let newBody := upsertNavigationInBody navigation msg.body
    (SyncAction.update prInfo.pr msg.title base newBody ::
      (if env.reviewers.length > 0 then
        [SyncAction.requestReviewers prInfo.pr env.reviewers] else []))
      ++ pass2 env allBranches dict (index + 1) rest

/-- The whole of `ensurePrsExist` as the sequence of remote calls it issues. -/
def ensurePrsExistActions (env : SyncEnv) (allBranches : List Str) : List SyncAction :=
  let p1 := pass1 env allBranches 0 allBranches
  p1.2 ++ pass2 env allBranches p1.1 0 allBranches

/-- The bases of the update calls in an action list, in order. -/
def updateBases (acts : List SyncAction) : List Str :=
  acts.filterMap (fun a =>
    match a with
    | .update _ _ base _ => some base
    | _ => none)

/-- The base of the first create call with the given head branch, if any. -/
def createBaseOf (acts : List SyncAction) (head : Str) : Option Str :=
  match acts with
  | [] => none
  | .create h b _ _ _ :: rest => if h = head then some b else createBaseOf rest head
  | _ :: rest => createBaseOf rest head

/-- Modelled from the spec: the base-resolution rule of section 3
("`base(branch_i)` = stable branch when `i == 0` or branch is combined;
otherwise `base(branch_i) = branch_{i-1}`"), written from the spec's words
for comparison with the code's `baseFor`. -/
def specBase (stable : Str) (combined : Option Str) (branches : List Str) (i : Nat) : Str :=
  if i = 0 ∨ some (branches.getD i []) = combined then stable
  else branches.getD (i - 1) []

/-- Ancestor oracle used in concrete instantiations: every pair already in
ancestor relation. -/
def ancTrue : Str → Str → Bool := fun _ _ => true

/-- Concrete PR-sync environment for instantiations: no PR exists yet on the
remote, creation always responds with PR number 101. -/
def envNew : SyncEnv where
  combinedBranch := some (str "feat-3")
  combinedBranchTitle := str "Combined PR"
  stableBranch := str "master"
  prMsg := fun b => ⟨b, str "body of commit"⟩
  existingPr := fun _ => none
  createdPr := fun _ => ⟨str "created title", str "created body", 101⟩
  draft := false
  reviewers := []

/-- Concrete PR-sync environment for instantiations: every branch already has
a remote PR, number 55. -/
def envExisting : SyncEnv where
  combinedBranch := none
  combinedBranchTitle := str "Combined PR"
  stableBranch := str "master"
  prMsg := fun b => ⟨b, str "body of commit"⟩
  existingPr := fun _ => some ⟨str "remote title", str "remote body", 55⟩
  createdPr := fun _ => ⟨str "created title", str "created body", 101⟩
  draft := false
  reviewers := [str "alice"]

/-! ### Basic facts about the prefix test and occurrence positions -/

theorem pfxB_iff (p q : Str) : pfxB p q = true ↔ ∃ t, q = p ++ t := by
  induction p generalizing q with
  | nil => simp [pfxB]
  | cons a as ih =>
    cases q with
    | nil => simp [pfxB]
    | cons b bs =>
      simp only [pfxB, Bool.and_eq_true, beq_iff_eq, ih]
      constructor
      · rintro ⟨h1, t, h2⟩
        exact ⟨t, by simp [h1, h2]⟩
      · rintro ⟨t, h⟩
        rw [List.cons_append] at h
        cases h
        exact ⟨rfl, t, rfl⟩

theorem pfxB_append (p t : Str) : pfxB p (p ++ t) = true :=
  (pfxB_iff p (p ++ t)).2 ⟨t, rfl⟩

theorem pfxB_append_right {n X : Str} (Y : Str) (h : pfxB n X = true) :
    pfxB n (X ++ Y) = true := by
  obtain ⟨t, rfl⟩ := (pfxB_iff n X).1 h
  rw [List.append_assoc]
  exact pfxB_append n (t ++ Y)

theorem pfxB_length_le {p q : Str} (h : pfxB p q = true) : p.length ≤ q.length := by
  obtain ⟨t, rfl⟩ := (pfxB_iff p q).1 h
  simp

theorem pfxB_eq_of_length {p q : Str} (h : pfxB p q = true) (hl : q.length ≤ p.length) :
    p = q := by
  obtain ⟨t, rfl⟩ := (pfxB_iff p q).1 h
  have hlen : p.length + t.length ≤ p.length := by simpa using hl
  have ht : t = [] := List.eq_nil_of_length_eq_zero (by omega)
  simp [ht]

theorem take_len_append (A C : Str) : (A ++ C).take A.length = A := by
  induction A with
  | nil => rfl
  | cons a as ih => simp [List.take, ih]

theorem drop_len_append (A C : Str) : (A ++ C).drop A.length = C := by
  induction A with
  | nil => rfl
  | cons a as ih => simp [List.drop, ih]

theorem take_append_le (A C : Str) (k : Nat) (h : k ≤ A.length) :
    (A ++ C).take k = A.take k := by
  induction A generalizing k with
  | nil =>
    cases k with
    | zero => rfl
    | succ n => simp at h
  | cons a as ih =>
    cases k with
    | zero => rfl
    | succ n =>
      rw [List.cons_append, List.take_succ_cons, List.take_succ_cons,
        ih n (by simpa using h)]

theorem drop_append_le (A C : Str) (k : Nat) (h : k ≤ A.length) :
    (A ++ C).drop k = A.drop k ++ C := by
  induction A generalizing k with
  | nil =>
    cases k with
    | zero => rfl
    | succ n => simp at h
  | cons a as ih =>
    cases k with
    | zero => rfl
    | succ n =>
      rw [List.cons_append, List.drop_succ_cons, List.drop_succ_cons]
      exact ih n (by simpa using h)

theorem drop_append_ge (A C : Str) (k : Nat) (h : A.length ≤ k) :
    (A ++ C).drop k = C.drop (k - A.length) := by
  induction A generalizing k with
  | nil => simp
  | cons a as ih =>
    cases k with
    | zero => simp at h
    | succ n =>
      rw [List.cons_append, List.drop_succ_cons, ih n (by simpa using h)]
      have harith : n - as.length = n + 1 - (a :: as).length := by
        simp only [List.length_cons]; omega
      rw [harith]

theorem pfxB_of_append_left {n X Y : Str} (h : pfxB n (X ++ Y) = true)
    (hl : n.length ≤ X.length) : pfxB n X = true := by
  obtain ⟨t, ht⟩ := (pfxB_iff n (X ++ Y)).1 h
  refine (pfxB_iff n X).2 ⟨X.drop n.length, ?_⟩
  have h1 : X.take n.length = n := by
    have := congrArg (fun l => List.take n.length l) ht
    simpa [take_append_le X Y n.length hl, take_len_append] using this
  conv_lhs => rw [← List.take_append_drop n.length X]
  rw [h1]

theorem pfxB_split {n X Y : Str} (h : pfxB n (X ++ Y) = true)
    (hl : X.length < n.length) :
    pfxB X n = true ∧ pfxB (n.drop X.length) Y = true := by
  obtain ⟨t, ht⟩ := (pfxB_iff n (X ++ Y)).1 h
  have h1 : X = n.take X.length := by
    have := congrArg (fun l => List.take X.length l) ht
    simpa [take_len_append, take_append_le n t X.length (Nat.le_of_lt hl)] using this
  constructor
  · refine (pfxB_iff X n).2 ⟨n.drop X.length, ?_⟩
    conv_lhs => rw [← List.take_append_drop X.length n]
    rw [← h1]
  · refine (pfxB_iff _ Y).2 ⟨t, ?_⟩
    have := congrArg (fun l => List.drop X.length l) ht
    simpa [drop_len_append, drop_append_le n t X.length (Nat.le_of_lt hl)] using this

theorem mem_matchPositions {n h : Str} {k : Nat} :
    k ∈ matchPositions n h ↔ k ≤ h.length ∧ pfxB n (h.drop k) = true := by
  simp [matchPositions, List.mem_filter, List.mem_range, Nat.lt_succ_iff]

theorem matchPositions_pairwise (n h : Str) :
    (matchPositions n h).Pairwise (· < ·) :=
  List.Pairwise.sublist (List.filter_sublist _) (List.pairwise_lt_range _)

theorem head?_min {l : List Nat} (hp : l.Pairwise (· < ·)) {a : Nat}
    (h : l.head? = some a) : a ∈ l ∧ ∀ x ∈ l, a ≤ x := by
  cases l with
  | nil => simp at h
  | cons b t =>
    simp only [List.head?_cons, Option.some.injEq] at h
    subst h
    refine ⟨List.mem_cons_self _ _, ?_⟩
    intro x hx
    rcases List.mem_cons.1 hx with h1 | h1
    · exact Nat.le_of_eq h1.symm
    · exact Nat.le_of_lt ((List.pairwise_cons.1 hp).1 x h1)

theorem getLast?_max {l : List Nat} (hp : l.Pairwise (· < ·)) {a : Nat}
    (h : l.getLast? = some a) : a ∈ l ∧ ∀ x ∈ l, x ≤ a := by
  induction l with
  | nil => simp at h
  | cons b t ih =>
    cases t with
    | nil =>
      simp only [List.getLast?_singleton, Option.some.injEq] at h
      subst h
      exact ⟨List.mem_cons_self _ _, by intro x hx; simp at hx; omega⟩
    | cons c t2 =>
      rw [List.getLast?_cons_cons] at h
      obtain ⟨hmem, hmax⟩ := ih (List.Pairwise.of_cons hp) h
      refine ⟨List.mem_cons_of_mem _ hmem, ?_⟩
      intro x hx
      rcases List.mem_cons.1 hx with h1 | h1
      · subst h1
        exact Nat.le_of_lt (Nat.lt_of_lt_of_le ((List.pairwise_cons.1 hp).1 _ hmem)
          (Nat.le_refl _))
      · exact hmax x h1

theorem head?_eq_of_min {l : List Nat} (hp : l.Pairwise (· < ·)) {a : Nat}
    (ha : a ∈ l) (hmin : ∀ x ∈ l, a ≤ x) : l.head? = some a := by
  cases l with
  | nil => simp at ha
  | cons b t =>
    have hab : a ≤ b := hmin b (List.mem_cons_self _ _)
    rcases List.mem_cons.1 ha with h1 | h1
    · simp [h1]
    · exact absurd ((List.pairwise_cons.1 hp).1 a h1)
        (by omega)

theorem getLast?_eq_of_max {l : List Nat} (hp : l.Pairwise (· < ·)) {a : Nat}
    (ha : a ∈ l) (hmax : ∀ x ∈ l, x ≤ a) : l.getLast? = some a := by
  induction l with
  | nil => simp at ha
  | cons b t ih =>
    cases t with
    | nil =>
      simp only [List.mem_singleton] at ha
      simp [ha]
    | cons c t2 =>
      rw [List.getLast?_cons_cons]
      have hbc : b < c := (List.pairwise_cons.1 hp).1 c (List.mem_cons_self _ _)
      have ha2 : a ∈ c :: t2 := by
        rcases List.mem_cons.1 ha with h1 | h1
        · subst h1
          have := hmax c (List.mem_cons_of_mem _ (List.mem_cons_self _ _))
          omega
        · exact h1
      exact ih (List.Pairwise.of_cons hp) ha2
        (fun x hx => hmax x (List.mem_cons_of_mem _ hx))

theorem expandReplacement_of_noDollar {repl : Str} (h : noDollar repl)
    (m p s : Str) : expandReplacement repl m p s = repl := by
  induction repl with
  | nil => rfl
  | cons c rest ih =>
    have hc : (c.toNat == 36) = false := by
      have := h c (List.mem_cons_self _ _)
      simp [this]
    have hrest : noDollar rest := fun x hx => h x (List.mem_cons_of_mem _ hx)
    rw [expandReplacement.eq_def]
    simp only [hc, Bool.false_eq_true, if_false]
    rw [ih hrest]

theorem openTag_length : openTag.length = 14 := by decide

theorem closeTag_length : closeTag.length = 15 := by decide

theorem openTag_no_border : ∀ d, d < 14 → 1 ≤ d →
    pfxB (openTag.drop d) openTag = false := by decide

theorem closeTag_no_border : ∀ d, d < 15 → 1 ≤ d →
    pfxB (closeTag.drop d) closeTag = false := by decide

/-! ### Computing the regex match region on a decomposed body -/

theorem tocMatchRegion_decomp (mid A B : Str)
    (hA : ∀ k, ¬ pfxB openTag (A.drop k) = true)
    (hB : ∀ k, ¬ pfxB closeTag (B.drop k) = true) :
    tocMatchRegion (A ++ (openTag ++ mid ++ closeTag) ++ B) =
      some (A.length, A.length + (openTag ++ mid ++ closeTag).length) := by
  set nav := openTag ++ mid ++ closeTag with hnav
  set r := A ++ nav ++ B with hr
  have hr2 : r = A ++ (nav ++ B) := by rw [hr, List.append_assoc]
  have hnl : nav.length = openTag.length + mid.length + closeTag.length := by
    rw [hnav]; simp only [List.length_append]
  have hopen14 : openTag.length = 14 := openTag_length
  have hclose15 : closeTag.length = 15 := closeTag_length
  have hopen_at : pfxB openTag (r.drop A.length) = true := by
    rw [hr2, drop_len_append, hnav]
    simp only [List.append_assoc]
    exact pfxB_append _ _
  have hALe : A.length ≤ r.length := by
    rw [hr]; simp only [List.length_append]; omega
  have hmem_open : A.length ∈ matchPositions openTag r :=
    mem_matchPositions.2 ⟨hALe, hopen_at⟩
  have hmin_open : ∀ x ∈ matchPositions openTag r, A.length ≤ x := by
    intro x hx
    by_contra hlt
    push_neg at hlt
    obtain ⟨hxle, hpfx⟩ := mem_matchPositions.1 hx
    rw [hr2, drop_append_le A (nav ++ B) x (Nat.le_of_lt hlt)] at hpfx
    by_cases hcase : openTag.length ≤ (A.drop x).length
    · exact hA x (pfxB_of_append_left hpfx hcase)
    · push_neg at hcase
      obtain ⟨hX, hdropPfx⟩ := pfxB_split hpfx hcase
      have hdlen : (A.drop x).length = A.length - x := List.length_drop _ _
      have hd1 : 1 ≤ (A.drop x).length := by omega
      have hd14 : (A.drop x).length < 14 := by omega
      have hlen2 : (openTag.drop (A.drop x).length).length ≤ nav.length := by
        simp only [List.length_drop]; omega
      have h3 : pfxB (openTag.drop (A.drop x).length) nav = true :=
        pfxB_of_append_left hdropPfx hlen2
      rw [hnav] at h3
      have hlenA : (openTag.drop (A.drop x).length).length ≤ (openTag ++ mid).length := by
        simp only [List.length_drop, List.length_append]; omega
      have hlenB : (openTag.drop (A.drop x).length).length ≤ openTag.length := by
        simp only [List.length_drop]; omega
      have h4 : pfxB (openTag.drop (A.drop x).length) openTag = true :=
        pfxB_of_append_left (pfxB_of_append_left h3 hlenA) hlenB
      have h5 := openTag_no_border (A.drop x).length hd14 hd1
      rw [h5] at h4
      exact Bool.noConfusion h4
  have hhead : (matchPositions openTag r).head? = some A.length :=
    head?_eq_of_min (matchPositions_pairwise _ _) hmem_open hmin_open
  have hclose_at :
      pfxB closeTag (r.drop (A.length + openTag.length + mid.length)) = true := by
    have h5 : r = (A ++ openTag ++ mid) ++ (closeTag ++ B) := by
      rw [hr, hnav]; simp only [List.append_assoc]
    rw [h5,
      show A.length + openTag.length + mid.length = (A ++ openTag ++ mid).length by
        simp only [List.length_append],
      drop_len_append]
    exact pfxB_append _ _
  have hj'le : A.length + openTag.length + mid.length ≤ r.length := by
    rw [hr]; simp only [List.length_append]; omega
  have hmem_close : A.length + openTag.length + mid.length ∈ matchPositions closeTag r :=
    mem_matchPositions.2 ⟨hj'le, hclose_at⟩
  have hfilter_mem : A.length + openTag.length + mid.length ∈
      (matchPositions closeTag r).filter
        (fun j => decide (A.length + openTag.length ≤ j)) := by
    rw [List.mem_filter]
    exact ⟨hmem_close, by simp⟩
  have hmax_close : ∀ x ∈ (matchPositions closeTag r).filter
      (fun j => decide (A.length + openTag.length ≤ j)),
      x ≤ A.length + openTag.length + mid.length := by
    intro x hx
    obtain ⟨hx1, _⟩ := List.mem_filter.1 hx
    obtain ⟨hxle, hpfx⟩ := mem_matchPositions.1 hx1
    by_contra hgt
    push_neg at hgt
    by_cases hcase : A.length + nav.length ≤ x
    · have h6 : r.drop x = B.drop (x - (A.length + nav.length)) := by
        rw [hr, drop_append_ge _ _ _ (by simp only [List.length_append]; omega)]
        congr 1
        simp only [List.length_append]
      rw [h6] at hpfx
      exact hB _ hpfx
    · push_neg at hcase
      have hxgeA : A.length ≤ x := by omega
      have hstep1 : r.drop x = nav.drop (x - A.length) ++ B := by
        rw [hr2, drop_append_ge A (nav ++ B) x hxgeA,
          drop_append_le nav B _ (by omega)]
      have hstep2 : nav.drop (x - A.length) =
          closeTag.drop ((x - A.length) - (openTag.length + mid.length)) := by
        rw [hnav,
          drop_append_ge _ _ _ (by simp only [List.length_append]; omega)]
        congr 1
        simp only [List.length_append]
      rw [hstep2] at hstep1
      rw [hstep1] at hpfx
      have hd2a : 1 ≤ (x - A.length) - (openTag.length + mid.length) := by omega
      have hd2b : (x - A.length) - (openTag.length + mid.length) < 15 := by omega
      have hlt2 : (closeTag.drop ((x - A.length) - (openTag.length + mid.length))).length <
          closeTag.length := by
        simp only [List.length_drop]; omega
      obtain ⟨hXpfx, _⟩ := pfxB_split hpfx hlt2
      have h7 := closeTag_no_border _ hd2b hd2a
      simp [h7] at hXpfx
  have hlast : ((matchPositions closeTag r).filter
      (fun j => decide (A.length + openTag.length ≤ j))).getLast? =
      some (A.length + openTag.length + mid.length) :=
    getLast?_eq_of_max
      (List.Pairwise.sublist (List.filter_sublist _) (matchPositions_pairwise _ _))
      hfilter_mem hmax_close
  have hfinal : A.length + openTag.length + mid.length + closeTag.length =
      A.length + nav.length := by omega
  simp only [tocMatchRegion, hhead, hlast]
  rw [hfinal]

theorem containsB_iff {n h : Str} :
    containsB n h = true ↔ ∃ k, k ≤ h.length ∧ pfxB n (h.drop k) = true := by
  simp [containsB, List.any_eq_true, List.mem_range, Nat.lt_succ_iff]

theorem matchPositions_nil_of_not_contains {n h : Str} (hc : containsB n h = false) :
    matchPositions n h = [] := by
  rw [List.eq_nil_iff_forall_not_mem]
  intro k hk
  obtain ⟨h1, h2⟩ := mem_matchPositions.1 hk
  have h3 : containsB n h = true := containsB_iff.2 ⟨k, h1, h2⟩
  rw [hc] at h3
  exact Bool.noConfusion h3

theorem tocMatchRegion_none_of_not_contains {b : Str}
    (hc : containsB openTag b = false) : tocMatchRegion b = none := by
  simp only [tocMatchRegion, matchPositions_nil_of_not_contains hc, List.head?_nil]

theorem tocMatchRegion_inv {b : Str} {i e : Nat} (h : tocMatchRegion b = some (i, e)) :
    (matchPositions openTag b).head? = some i ∧
    ∃ j, ((matchPositions closeTag b).filter
        (fun x => decide (i + openTag.length ≤ x))).getLast? = some j ∧
      e = j + closeTag.length := by
  unfold tocMatchRegion at h
  split at h
  · exact Option.noConfusion h
  · rename_i i0 hh
    split at h
    · exact Option.noConfusion h
    · rename_i j0 hl
      simp only [Option.some.injEq, Prod.mk.injEq] at h
      obtain ⟨rfl, rfl⟩ := h
      exact ⟨hh, j0, hl, rfl⟩

theorem upsert_cases (nav b : Str) (hb : b ≠ []) (hd : noDollar nav) :
    upsertNavigationInBody nav b =
      match tocMatchRegion b with
      | some (i, e) => b.take i ++ nav ++ b.drop e
      | none => if containsB openTag b then b else b ++ '\n' :: nav := by
  have hbe : b.isEmpty = false := by
    cases b with
    | nil => exact absurd rfl hb
    | cons a t => rfl
  by_cases hct : containsB openTag b = true
  · simp only [upsertNavigationInBody, hbe, Bool.false_eq_true, if_false, hct, if_true]
    cases hreg : tocMatchRegion b with
    | none => simp only [replaceToc, hreg]
    | some p =>
      obtain ⟨i, e⟩ := p
      simp only [replaceToc, hreg, expandReplacement_of_noDollar hd]
  · have hcf : containsB openTag b = false := by simpa using hct
    simp only [upsertNavigationInBody, hbe, Bool.false_eq_true, if_false, hcf,
      tocMatchRegion_none_of_not_contains hcf]

theorem not_pfxB_nil (n : Str) (hn : n ≠ []) :
    ∀ k, ¬ pfxB n (([] : Str).drop k) = true := by
  intro k h
  rw [List.drop_nil] at h
  obtain ⟨t, ht⟩ := (pfxB_iff _ _).1 h
  cases n with
  | nil => exact hn rfl
  | cons a as => simp at ht

theorem upsert_fixed (mid A B : Str) (hd : noDollar (openTag ++ mid ++ closeTag))
    (hA : ∀ k, ¬ pfxB openTag (A.drop k) = true)
    (hB : ∀ k, ¬ pfxB closeTag (B.drop k) = true) :
    upsertNavigationInBody (openTag ++ mid ++ closeTag)
        (A ++ (openTag ++ mid ++ closeTag) ++ B) =
      A ++ (openTag ++ mid ++ closeTag) ++ B := by
  set nav := openTag ++ mid ++ closeTag with hnav
  set r := A ++ nav ++ B with hr
  have hr2 : r = A ++ (nav ++ B) := by rw [hr, List.append_assoc]
  have hreg := tocMatchRegion_decomp mid A B hA hB
  have hnl : nav.length = openTag.length + mid.length + closeTag.length := by
    rw [hnav]; simp only [List.length_append]
  have hrlen : r.length = A.length + nav.length + B.length := by
    rw [hr]; simp only [List.length_append]
  have ho := openTag_length
  have hc := closeTag_length
  have hrne : r ≠ [] := by
    intro hcon
    rw [hcon] at hrlen
    simp only [List.length_nil] at hrlen
    omega
  have htake : r.take A.length = A := by rw [hr2]; exact take_len_append _ _
  have hdrop : r.drop (A.length + nav.length) = B := by
    rw [hr,
      show A.length + nav.length = (A ++ nav).length by simp only [List.length_append]]
    exact drop_len_append _ _
  rw [upsert_cases nav r hrne hd]
  simp only [hreg, htake, hdrop]

theorem upsert_idem (mid b : Str) (hd : noDollar (openTag ++ mid ++ closeTag)) :
    upsertNavigationInBody (openTag ++ mid ++ closeTag)
        (upsertNavigationInBody (openTag ++ mid ++ closeTag) b) =
      upsertNavigationInBody (openTag ++ mid ++ closeTag) b := by
  set nav := openTag ++ mid ++ closeTag with hnav
  have ho := openTag_length
  have hc := closeTag_length
  by_cases hbe : b = []
  · subst hbe
    have h1 : upsertNavigationInBody nav [] = nav := rfl
    rw [h1]
    have h2 := upsert_fixed mid [] [] hd
      (not_pfxB_nil openTag (by decide)) (not_pfxB_nil closeTag (by decide))
    simpa using h2
  · by_cases hct : containsB openTag b = true
    · cases hreg : tocMatchRegion b with
      | none =>
        have h1 : upsertNavigationInBody nav b = b := by
          rw [upsert_cases nav b hbe hd]
          simp only [hreg, hct, if_true]
        rw [h1, h1]
      | some p =>
        obtain ⟨i, e⟩ := p
        obtain ⟨hhead, j, hlastj, he⟩ := tocMatchRegion_inv hreg
        obtain ⟨himem, himin⟩ := head?_min (matchPositions_pairwise _ _) hhead
        obtain ⟨hjmem, hjmax⟩ := getLast?_max
          (List.Pairwise.sublist (List.filter_sublist _) (matchPositions_pairwise _ _))
          hlastj
        obtain ⟨hjmem2, hjcond⟩ := List.mem_filter.1 hjmem
        obtain ⟨hjle, hjpfx⟩ := mem_matchPositions.1 hjmem2
        obtain ⟨hile, hipfx⟩ := mem_matchPositions.1 himem
        have hjge : i + openTag.length ≤ j := by simpa using hjcond
        have h1 : upsertNavigationInBody nav b = b.take i ++ nav ++ b.drop e := by
          rw [upsert_cases nav b hbe hd]
          simp only [hreg]
        have htl : (b.take i).length = i := by
          rw [List.length_take]; omega
        have hA2 : ∀ k, ¬ pfxB openTag ((b.take i).drop k) = true := by
          intro k h
          have hklen : k + openTag.length ≤ (b.take i).length := by
            have h5 := pfxB_length_le h
            simp only [List.length_drop] at h5
            omega
          have hsplit : b.drop k = (b.take i).drop k ++ b.drop i := by
            conv_lhs => rw [← List.take_append_drop i b]
            rw [drop_append_le _ _ k (by omega)]
          have h2 : pfxB openTag (b.drop k) = true := by
            rw [hsplit]
            exact pfxB_append_right _ h
          have hkmem : k ∈ matchPositions openTag b :=
            mem_matchPositions.2 ⟨by omega, h2⟩
          have h6 := himin k hkmem
          omega
        have hB2 : ∀ k, ¬ pfxB closeTag ((b.drop e).drop k) = true := by
          intro k h
          rw [List.drop_drop] at h
          have hlen := pfxB_length_le h
          simp only [List.length_drop] at hlen
          have hmem : (e + k) ∈ matchPositions closeTag b :=
            mem_matchPositions.2 ⟨by omega, h⟩
          have hcond : decide (i + openTag.length ≤ e + k) = true := by
            simp only [decide_eq_true_eq]
            omega
          have hmemf : (e + k) ∈ (matchPositions closeTag b).filter
              (fun x => decide (i + openTag.length ≤ x)) :=
            List.mem_filter.2 ⟨hmem, hcond⟩
          have h6 := hjmax _ hmemf
          omega
        rw [h1]
        exact upsert_fixed mid (b.take i) (b.drop e) hd hA2 hB2
    · have hcf : containsB openTag b = false := by simpa using hct
      have h1 : upsertNavigationInBody nav b = b ++ '\n' :: nav := by
        rw [upsert_cases nav b hbe hd]
        simp only [tocMatchRegion_none_of_not_contains hcf, hcf]
        simp
      have hshape : b ++ '\n' :: nav = (b ++ ['\n']) ++ nav ++ [] := by simp
      have hAA : ∀ k, ¬ pfxB openTag ((b ++ ['\n']).drop k) = true := by
        intro k h
        have hkb : k ≤ b.length := by
          by_contra hgt
          push_neg at hgt
          rw [drop_append_ge b ['\n'] k (by omega)] at h
          have hnil : (['\n'] : Str).drop (k - b.length) = [] := by
            apply List.drop_of_length_le
            simp only [List.length_cons, List.length_nil]
            omega
          rw [hnil] at h
          have h5 := pfxB_length_le h
          simp only [List.length_nil] at h5
          omega
        rw [drop_append_le b ['\n'] k hkb] at h
        by_cases hlen : openTag.length ≤ (b.drop k).length
        · have h2 : pfxB openTag (b.drop k) = true := pfxB_of_append_left h hlen
          have h3 : containsB openTag b = true := containsB_iff.2 ⟨k, hkb, h2⟩
          rw [hcf] at h3
          exact Bool.noConfusion h3
        · push_neg at hlen
          obtain ⟨_, h3⟩ := pfxB_split h hlen
          have hlen2 := pfxB_length_le h3
          simp only [List.length_drop] at hlen2
          have hbk : (b.drop k).length = b.length - k := List.length_drop _ _
          have h13 : (b.drop k).length = 13 := by
            simp only [List.length_cons, List.length_nil] at hlen2
            omega
          rw [h13] at h3
          have h4 : pfxB (openTag.drop 13) (['\n'] : Str) = false := by decide
          rw [h4] at h3
          exact Bool.noConfusion h3
      rw [h1, hshape]
      exact upsert_fixed mid (b ++ ['\n']) [] hd hAA
        (not_pfxB_nil closeTag (by decide))

/-! ### Reflow-engine characterization -/

theorem filterMap_ext {α : Type} {f g : Nat → Option α} (l : List Nat)
    (h : ∀ a ∈ l, f a = g a) : l.filterMap f = l.filterMap g := by
  induction l with
  | nil => rfl
  | cons a t ih =>
    rw [List.filterMap_cons, List.filterMap_cons, h a (List.mem_cons_self _ _),
      ih (fun x hx => h x (List.mem_cons_of_mem _ hx))]

theorem filterMap_range_shift {α : Type} (f : Nat → Option α) (n : Nat) :
    (List.range (n + 1)).filterMap f =
      (match f 0 with | none => [] | some a => [a]) ++
        (List.range n).filterMap (fun i => f (i + 1)) := by
  rw [List.range_succ_eq_map, List.filterMap_cons, List.filterMap_map]
  have hcomp : (List.range n).filterMap (f ∘ Nat.succ) =
      (List.range n).filterMap (fun i => f (i + 1)) :=
    filterMap_ext _ (fun a _ => rfl)
  rw [hcomp]
  cases f 0 with
  | none => rfl
  | some a => rfl

theorem reflowSteps_nil (g : Str → Str → Bool) : reflowSteps g [] = [] := rfl

theorem reflowSteps_single (g : Str → Str → Bool) (b : Str) :
    reflowSteps g [b] = [] := rfl

theorem reflowSteps_cons (g : Str → Str → Bool) (b1 b2 : Str) (rest : List Str) :
    reflowSteps g (b1 :: b2 :: rest) =
      (if g b1 b2 then [] else [(b1, b2)]) ++ reflowSteps g (b2 :: rest) := by
  unfold reflowSteps
  have hl1 : (b1 :: b2 :: rest).length - 1 = rest.length + 1 := by
    simp only [List.length_cons]; omega
  have hl2 : (b2 :: rest).length - 1 = rest.length := by
    simp only [List.length_cons]; omega
  rw [hl1, hl2, filterMap_range_shift]
  cases hg : g b1 b2 with
  | true => simp [hg]
  | false => simp [hg]

theorem reflowSteps_eq_filter (g : Str → Str → Bool) (branches : List Str) :
    reflowSteps g branches =
      (branches.zip branches.tail).filter (fun p => !g p.1 p.2) := by
  induction branches with
  | nil => rfl
  | cons b1 t ih =>
    cases t with
    | nil => rfl
    | cons b2 rest =>
      rw [reflowSteps_cons, ih]
      simp only [List.tail_cons, List.zip_cons_cons, List.filter_cons]
      cases hg : g b1 b2 with
      | true => simp [hg]
      | false => simp [hg]

/-! ### Range-string parsing -/

theorem takeWhile_all (p : Char → Bool) (xs : Str) (h : ∀ c ∈ xs, p c = true) :
    xs.takeWhile p = xs := by
  induction xs with
  | nil => rfl
  | cons a t ih =>
    rw [List.takeWhile_cons, h a (List.mem_cons_self _ _)]
    simp only [if_true]
    rw [ih (fun c hc => h c (List.mem_cons_of_mem _ hc))]

theorem takeWhile_append_not (p : Char → Bool) (xs : Str) (y : Char) (ys : Str)
    (hxs : ∀ c ∈ xs, p c = true) (hy : p y = false) :
    (xs ++ y :: ys).takeWhile p = xs := by
  induction xs with
  | nil =>
    rw [List.nil_append, List.takeWhile_cons, hy]
    simp
  | cons a t ih =>
    rw [List.cons_append, List.takeWhile_cons, hxs a (List.mem_cons_self _ _)]
    simp only [if_true]
    rw [ih (fun c hc => hxs c (List.mem_cons_of_mem _ hc))]

theorem str_dots : str ".." = ['.', '.'] := rfl

theorem matchRangeAt_exact (d1 d2 : Str) (h1 : d1 ≠ []) (h2 : d2 ≠ [])
    (hd1 : ∀ c ∈ d1, c.isDigit = true) (hd2 : ∀ c ∈ d2, c.isDigit = true) :
    matchRangeAt (d1 ++ ('.' :: '.' :: d2)) = some (d1, d2) := by
  have htw : (d1 ++ ('.' :: '.' :: d2)).takeWhile (fun c => c.isDigit) = d1 :=
    takeWhile_append_not _ _ _ _ hd1 (by decide)
  have h1e : d1.isEmpty = false := by
    cases d1 with
    | nil => exact absurd rfl h1
    | cons a t => rfl
  have h2e : d2.isEmpty = false := by
    cases d2 with
    | nil => exact absurd rfl h2
    | cons a t => rfl
  have hdrop : (d1 ++ ('.' :: '.' :: d2)).drop d1.length = '.' :: '.' :: d2 :=
    drop_len_append _ _
  have hp : pfxB (str "..") ('.' :: '.' :: d2) = true := by
    have := pfxB_append (str "..") d2
    rw [str_dots] at this ⊢
    exact this
  have htw2 : d2.takeWhile (fun c => c.isDigit) = d2 := takeWhile_all _ _ hd2
  simp only [matchRangeAt, htw, h1e, Bool.false_eq_true, if_false, hdrop, hp,
    if_true, List.drop_succ_cons, List.drop_zero, htw2, h2e]

theorem findRangeMatch_exact (d1 d2 : Str) (h1 : d1 ≠ []) (h2 : d2 ≠ [])
    (hd1 : ∀ c ∈ d1, c.isDigit = true) (hd2 : ∀ c ∈ d2, c.isDigit = true) :
    findRangeMatch (d1 ++ ('.' :: '.' :: d2)) = some (d1, d2) := by
  cases d1 with
  | nil => exact absurd rfl h1
  | cons c t =>
    have hm := matchRangeAt_exact (c :: t) d2 (by simp) h2 hd1 hd2
    rw [List.cons_append] at hm ⊢
    rw [findRangeMatch, hm]

/-! ### PR-synchronization helpers -/

theorem getD_mem {l : List Str} {j : Nat} (h : j < l.length) (d : Str) :
    l.getD j d ∈ l := by
  induction l generalizing j with
  | nil => simp at h
  | cons a t ih =>
    cases j with
    | zero => simp
    | succ j2 =>
      simp only [List.getD_cons_succ]
      exact List.mem_cons_of_mem _ (ih (by simpa using h))

theorem updateBases_pass2 (env : SyncEnv) (allB : List Str)
    (dict : List (Str × PrRecord)) :
    ∀ (l : List Str) (k i : Nat), i < l.length →
      (updateBases (pass2 env allB dict k l)).getD i [] =
        baseFor env allB (k + i) (l.getD i []) := by
  intro l
  induction l with
  | nil => intro k i h; simp at h
  | cons branch rest ih =>
    intro k i h
    have hstep : updateBases (pass2 env allB dict k (branch :: rest)) =
        baseFor env allB k branch ::
          updateBases (pass2 env allB dict (k + 1) rest) := by
      simp only [pass2, updateBases]
      by_cases hrev : env.reviewers.length > 0
      · simp [hrev, List.filterMap_cons, List.filterMap_append]
      · simp [hrev, List.filterMap_cons, List.filterMap_append]
    cases i with
    | zero =>
      rw [hstep]
      simp only [List.getD_cons_zero, List.getD_cons_zero, Nat.add_zero]
    | succ i2 =>
      rw [hstep]
      simp only [List.getD_cons_succ]
      have h2 : i2 < rest.length := by simp at h; omega
      rw [ih (k + 1) i2 h2]
      have harith : k + 1 + i2 = k + (i2 + 1) := by omega
      rw [harith]

theorem pass1_create_mem (env : SyncEnv) (allB : List Str) :
    ∀ (l : List Str) (k : Nat) (a : SyncAction), a ∈ (pass1 env allB k l).2 →
      ∃ j, j < l.length ∧ env.existingPr (l.getD j []) = none ∧
        a = SyncAction.create (l.getD j [])
            (baseFor env allB (k + j) (l.getD j []))
            (desiredPrMsg env (l.getD j [])).title
            (desiredPrMsg env (l.getD j [])).body env.draft := by
  intro l
  induction l with
  | nil => intro k a ha; simp [pass1] at ha
  | cons branch rest ih =>
    intro k a ha
    cases hex : env.existingPr branch with
    | some info =>
      simp only [pass1, hex, List.nil_append] at ha
      obtain ⟨j, hj, hex2, heq⟩ := ih (k + 1) a ha
      refine ⟨j + 1, by simp only [List.length_cons]; omega, ?_, ?_⟩
      · simpa only [List.getD_cons_succ] using hex2
      · have harith : k + 1 + j = k + (j + 1) := by omega
        rw [harith] at heq
        simpa only [List.getD_cons_succ] using heq
    | none =>
      simp only [pass1, hex, List.singleton_append] at ha
      rcases List.mem_cons.1 ha with h1 | h1
      · refine ⟨0, by simp only [List.length_cons]; omega, ?_, ?_⟩
        · simpa only [List.getD_cons_zero] using hex
        · simpa only [List.getD_cons_zero, Nat.add_zero] using h1
      · obtain ⟨j, hj, hex2, heq⟩ := ih (k + 1) a h1
        refine ⟨j + 1, by simp only [List.length_cons]; omega, ?_, ?_⟩
        · simpa only [List.getD_cons_succ] using hex2
        · have harith : k + 1 + j = k + (j + 1) := by omega
          rw [harith] at heq
          simpa only [List.getD_cons_succ] using heq

theorem pass1_no_creates (env : SyncEnv) (allB : List Str) :
    ∀ (l : List Str) (k : Nat), (∀ b ∈ l, (env.existingPr b).isSome = true) →
      (pass1 env allB k l).2 = [] := by
  intro l
  induction l with
  | nil => intro k _; rfl
  | cons branch rest ih =>
    intro k h
    cases hex : env.existingPr branch with
    | none =>
      have h2 := h branch (List.mem_cons_self _ _)
      rw [hex] at h2
      simp at h2
    | some info =>
      simp only [pass1, hex, List.nil_append]
      exact ih (k + 1) (fun b hb => h b (List.mem_cons_of_mem _ hb))

theorem pass1_dict_existing (env : SyncEnv) (allB : List Str) :
    ∀ (l : List Str) (k : Nat) (p : Str × PrRecord), p ∈ (pass1 env allB k l).1 →
      ∀ info, env.existingPr p.1 = some info →
        p.2 = ⟨info.body, info.title, info.number, true⟩ := by
  intro l
  induction l with
  | nil => intro k p hp; simp [pass1] at hp
  | cons branch rest ih =>
    intro k p hp info hinfo
    cases hex : env.existingPr branch with
    | some resp =>
      simp only [pass1, hex] at hp
      rcases List.mem_cons.1 hp with h1 | h1
      · have hp1 : p.1 = branch := by rw [h1]
        have hp2 : p.2 = ⟨resp.body, resp.title, resp.number, true⟩ := by rw [h1]
        rw [hp1, hex] at hinfo
        injection hinfo with hinj
        rw [hp2, ← hinj]
      · exact ih (k + 1) p h1 info hinfo
    | none =>
      simp only [pass1, hex] at hp
      rcases List.mem_cons.1 hp with h1 | h1
      · have hp1 : p.1 = branch := by rw [h1]
        rw [hp1, hex] at hinfo
        exact Option.noConfusion hinfo
      · exact ih (k + 1) p h1 info hinfo

theorem createBaseOf_some {acts : List SyncAction} {head : Str} {b : Str}
    (h : createBaseOf acts head = some b) :
    ∃ t bo d, SyncAction.create head b t bo d ∈ acts := by
  induction acts with
  | nil => simp [createBaseOf] at h
  | cons a rest ih =>
    cases a with
    | create h2 b2 t bo d =>
      simp only [createBaseOf] at h
      by_cases hh : h2 = head
      · rw [if_pos hh] at h
        injection h with h3
        exact ⟨t, bo, d, by rw [← hh, ← h3]; exact List.mem_cons_self _ _⟩
      · rw [if_neg hh] at h
        obtain ⟨t2, bo2, d2, hmem⟩ := ih h
        exact ⟨t2, bo2, d2, List.mem_cons_of_mem _ hmem⟩
    | update p t ba bo =>
      simp only [createBaseOf] at h
      obtain ⟨t2, bo2, d2, hmem⟩ := ih h
      exact ⟨t2, bo2, d2, List.mem_cons_of_mem _ hmem⟩
    | requestReviewers p r =>
      simp only [createBaseOf] at h
      obtain ⟨t2, bo2, d2, hmem⟩ := ih h
      exact ⟨t2, bo2, d2, List.mem_cons_of_mem _ hmem⟩

theorem pass1_createBaseOf (env : SyncEnv) (allB : List Str) :
    ∀ (l : List Str) (k i : Nat), i < l.length → l.Nodup →
      createBaseOf (pass1 env allB k l).2 (l.getD i []) =
        (if env.existingPr (l.getD i []) = none then
          some (baseFor env allB (k + i) (l.getD i [])) else none) := by
  intro l
  induction l with
  | nil => intro k i h; simp at h
  | cons branch rest ih =>
    intro k i h hnd
    have hnd2 : rest.Nodup := (List.nodup_cons.1 hnd).2
    have hbr : branch ∉ rest := (List.nodup_cons.1 hnd).1
    cases i with
    | zero =>
      simp only [List.getD_cons_zero]
      cases hex : env.existingPr branch with
      | none =>
        simp only [pass1, hex, List.singleton_append, createBaseOf, if_pos rfl,
          Nat.add_zero]
        simp [hex]
      | some info =>
        simp only [pass1, hex, List.nil_append]
        have hnone : createBaseOf (pass1 env allB (k + 1) rest).2 branch = none := by
          cases hcb : createBaseOf (pass1 env allB (k + 1) rest).2 branch with
          | none => rfl
          | some b2 =>
            obtain ⟨t, bo, d, hmem⟩ := createBaseOf_some hcb
            obtain ⟨j, hj, _, heq⟩ := pass1_create_mem env allB rest (k + 1) _ hmem
            injection heq with e1 e2 e3 e4 e5
            exact absurd (e1 ▸ getD_mem hj []) hbr
        rw [hnone]
        simp [hex]
    | succ i2 =>
      simp only [List.getD_cons_succ]
      have hi2 : i2 < rest.length := by simp at h; omega
      cases hex : env.existingPr branch with
      | some info =>
        simp only [pass1, hex, List.nil_append]
        rw [ih (k + 1) i2 hi2 hnd2]
        have harith : k + 1 + i2 = k + (i2 + 1) := by omega
        rw [harith]
      | none =>
        simp only [pass1, hex, List.singleton_append, createBaseOf]
        have hne : branch ≠ rest.getD i2 [] := by
          intro hcon
          exact hbr (hcon ▸ getD_mem hi2 [])
        rw [if_neg hne, ih (k + 1) i2 hi2 hnd2]
        have harith : k + 1 + i2 = k + (i2 + 1) := by omega
        rw [harith]

/-! ### Claim theorems -/

/-- C1 counterexample: a combine failure reporting a non-empty conflict list
is not propagated — `combineBranches` completes normally (`.ok`), contrary to
the claim that the failure is rethrown to the caller. -/
theorem claim_C1_counterexample :
    combineBranches (Except.error ⟨some [str "file.txt"]⟩)
      (Except.error ⟨some [str "file.txt"]⟩) = Except.ok () := rfl

/-- C1 (amended): a first-attempt failure whose conflict list is non-empty is
swallowed by the catch block — `combineBranches` completes normally and does
not retry; only a failure with an absent or empty conflict list triggers the
single retry, whose outcome (including a failure) is what the caller sees. -/
theorem claim_C1_amended_thm (try2 : Except GitError Unit) (cs : List Str)
    (h : cs ≠ []) :
    combineBranches (Except.error ⟨some cs⟩) try2 = Except.ok () ∧
    combineBranches (Except.error ⟨none⟩) try2 = try2 ∧
    combineBranches (Except.error ⟨some []⟩) try2 = try2 := by
  refine ⟨?_, rfl, rfl⟩
  cases cs with
  | nil => exact absurd rfl h
  | cons a t => rfl

/-- C1 witness. -/
theorem claim_C1_witness :
    ([str "file.txt"] ≠ ([] : List Str)) ∧
    (combineBranches (Except.error ⟨some [str "file.txt"]⟩)
        (Except.error ⟨none⟩) = Except.ok () ∧
      combineBranches (Except.error ⟨none⟩)
          (Except.error (⟨none⟩ : GitError) : Except GitError Unit) =
        Except.error ⟨none⟩ ∧
      combineBranches (Except.error ⟨some []⟩)
          (Except.error (⟨none⟩ : GitError) : Except GitError Unit) =
        Except.error ⟨none⟩) :=
  ⟨by decide,
    claim_C1_amended_thm (Except.error ⟨none⟩) [str "file.txt"] (by decide)⟩

/-- C2 counterexample: with an empty branch list the source still issues one
`git push <remote>` command, so the call is not a no-op. -/
theorem claim_C2_counterexample :
    pushBranchesCommands [] false (str "origin") = [[str "push", str "origin"]] ∧
    pushBranchesCommands [] false (str "origin") ≠ [] := by decide

/-- C2 (amended): `pushBranches` always issues exactly one `git push` call;
for an empty branch list with a nonempty remote name that call is
`git push [--force] <remote>` with no ref arguments (which pushes the
current branch under git's default behavior, not nothing). -/
theorem claim_C2_amended_thm (force : Bool) (remote : Str) (hr : remote ≠ []) :
    pushBranchesCommands [] force remote =
      [str "push" :: (if force then [str "--force"] else []) ++ [remote]] := by
  have hre : remote.isEmpty = false := by
    cases remote with
    | nil => exact absurd rfl hr
    | cons a t => rfl
  have hp : (str "push").isEmpty = false := by decide
  have hf : (str "--force").isEmpty = false := by decide
  cases force with
  | true =>
    simp [pushBranchesCommands, pushArgs, List.filter_cons, List.filter_append,
      hp, hf, hre]
  | false =>
    simp [pushBranchesCommands, pushArgs, List.filter_cons, List.filter_append,
      hp, hre]

/-- C2 witness. -/
theorem claim_C2_witness :
    (str "origin" ≠ ([] : Str)) ∧
    pushBranchesCommands [] true (str "origin") =
      [str "push" :: (if true then [str "--force"] else []) ++ [str "origin"]] :=
  ⟨by decide, claim_C2_amended_thm true (str "origin") (by decide)⟩

/-- C3 counterexample: upsert is not idempotent for an arbitrary navigation
string — a navigation that lacks the sentinel markers is appended once more
by the second application. -/
theorem claim_C3_counterexample :
    upsertNavigationInBody (str "x")
        (upsertNavigationInBody (str "x") (str "b")) ≠
      upsertNavigationInBody (str "x") (str "b") := by decide

/-- C3 (amended): for every navigation string of the shape actually produced
by `constructTrainNavigation` — a sentinel-delimited block
`openTag ++ mid ++ closeTag` — with no dollar character,
`upsertNavigationInBody` is textually idempotent on every body. -/
theorem claim_C3_amended_thm (mid b : Str)
    (hd : noDollar (openTag ++ mid ++ closeTag)) :
    upsertNavigationInBody (openTag ++ mid ++ closeTag)
        (upsertNavigationInBody (openTag ++ mid ++ closeTag) b) =
      upsertNavigationInBody (openTag ++ mid ++ closeTag) b :=
  upsert_idem mid b hd

/-- C3 witness. -/
theorem claim_C3_witness :
    noDollar (openTag ++ str "nav-body" ++ closeTag) ∧
    upsertNavigationInBody (openTag ++ str "nav-body" ++ closeTag)
        (upsertNavigationInBody (openTag ++ str "nav-body" ++ closeTag)
          (str "hello")) =
      upsertNavigationInBody (openTag ++ str "nav-body" ++ closeTag)
        (str "hello") :=
  ⟨by decide, claim_C3_amended_thm (str "nav-body") (str "hello") (by decide)⟩

/-- C4: in both passes of PR synchronization the base computed for the branch
at index `i` is the spec's base rule: the stable branch when `i = 0` or the
branch is the combined branch, and otherwise the preceding branch.  Pass 2
records the base in its update call for index `i`; pass 1 uses it in the
create call, which exists exactly when the head-branch lookup found no PR. -/
theorem claim_C4_thm (env : SyncEnv) (allB : List Str)
    (dict : List (Str × PrRecord)) (i : Nat) (h : i < allB.length)
    (hnd : allB.Nodup) :
    (updateBases (pass2 env allB dict 0 allB)).getD i [] =
      specBase env.stableBranch env.combinedBranch allB i ∧
    createBaseOf (pass1 env allB 0 allB).2 (allB.getD i []) =
      (if env.existingPr (allB.getD i []) = none then
        some (specBase env.stableBranch env.combinedBranch allB i) else none) := by
  have h1 := updateBases_pass2 env allB dict allB 0 i h
  have h2 := pass1_createBaseOf env allB allB 0 i h hnd
  rw [Nat.zero_add] at h1 h2
  have hbs : baseFor env allB i (allB.getD i []) =
      specBase env.stableBranch env.combinedBranch allB i := rfl
  rw [hbs] at h1 h2
  exact ⟨h1, h2⟩

/-- C4 witness. -/
theorem claim_C4_witness :
    ((1 : Nat) < [str "feat-1", str "feat-2", str "feat-3"].length ∧
      [str "feat-1", str "feat-2", str "feat-3"].Nodup) ∧
    ((updateBases (pass2 envNew [str "feat-1", str "feat-2", str "feat-3"] [] 0
        [str "feat-1", str "feat-2", str "feat-3"])).getD 1 [] =
      specBase envNew.stableBranch envNew.combinedBranch
        [str "feat-1", str "feat-2", str "feat-3"] 1 ∧
    createBaseOf (pass1 envNew [str "feat-1", str "feat-2", str "feat-3"] 0
        [str "feat-1", str "feat-2", str "feat-3"]).2
        ([str "feat-1", str "feat-2", str "feat-3"].getD 1 []) =
      (if envNew.existingPr
          ([str "feat-1", str "feat-2", str "feat-3"].getD 1 []) = none then
        some (specBase envNew.stableBranch envNew.combinedBranch
          [str "feat-1", str "feat-2", str "feat-3"] 1) else none)) :=
  ⟨⟨by decide, by decide⟩,
    claim_C4_thm envNew [str "feat-1", str "feat-2", str "feat-3"] [] 1
      (by decide) (by decide)⟩

/-- C5: the reflow engine considers exactly the adjacent pairs of the train
in increasing order, combining a pair precisely when the ancestor test fails;
so when every adjacent pair is already in ancestor relation, a run performs
zero combine operations. -/
theorem claim_C5_thm (g : Str → Str → Bool) (branches : List Str) :
    reflowSteps g branches =
      (branches.zip branches.tail).filter (fun p => !g p.1 p.2) ∧
    ((∀ p ∈ branches.zip branches.tail, g p.1 p.2 = true) →
      reflowSteps g branches = []) := by
  refine ⟨reflowSteps_eq_filter g branches, ?_⟩
  intro hall
  rw [reflowSteps_eq_filter g branches, List.filter_eq_nil_iff]
  intro p hp
  simp [hall p hp]

/-- C5 witness. -/
theorem claim_C5_witness :
    reflowSteps ancTrue [str "b1", str "b2", str "b3"] =
      ([str "b1", str "b2", str "b3"].zip
          [str "b1", str "b2", str "b3"].tail).filter
        (fun p => !ancTrue p.1 p.2) ∧
    ((∀ p ∈ [str "b1", str "b2", str "b3"].zip
        [str "b1", str "b2", str "b3"].tail, ancTrue p.1 p.2 = true) →
      reflowSteps ancTrue [str "b1", str "b2", str "b3"] = []) :=
  claim_C5_thm ancTrue [str "b1", str "b2", str "b3"]

/-- C6: during pass 1, a branch whose remote head-branch lookup finds an
existing PR never triggers a create call; its dictionary entry reuses the
remote PR's number and adopts the remote title and body (marked updating,
discarding the locally recomputed message); and when every branch has an
existing PR, pass 1 issues zero create calls. -/
theorem claim_C6_thm (env : SyncEnv) (allB : List Str) :
    (∀ head base t bo d,
      SyncAction.create head base t bo d ∈ (pass1 env allB 0 allB).2 →
        env.existingPr head = none) ∧
    (∀ p ∈ (pass1 env allB 0 allB).1, ∀ info, env.existingPr p.1 = some info →
        p.2 = ⟨info.body, info.title, info.number, true⟩) ∧
    ((∀ b ∈ allB, (env.existingPr b).isSome = true) →
      (pass1 env allB 0 allB).2 = []) := by
  refine ⟨?_, pass1_dict_existing env allB allB 0, pass1_no_creates env allB allB 0⟩
  intro head base t bo d hmem
  obtain ⟨j, hj, hex, heq⟩ := pass1_create_mem env allB allB 0 _ hmem
  injection heq with e1 e2 e3 e4 e5
  rw [e1]
  exact hex

/-- C6 witness. -/
theorem claim_C6_witness :
    (∀ head base t bo d,
      SyncAction.create head base t bo d ∈
          (pass1 envExisting [str "x", str "y"] 0 [str "x", str "y"]).2 →
        envExisting.existingPr head = none) ∧
    (∀ p ∈ (pass1 envExisting [str "x", str "y"] 0 [str "x", str "y"]).1,
      ∀ info, envExisting.existingPr p.1 = some info →
        p.2 = ⟨info.body, info.title, info.number, true⟩) ∧
    ((∀ b ∈ [str "x", str "y"], (envExisting.existingPr b).isSome = true) →
      (pass1 envExisting [str "x", str "y"] 0 [str "x", str "y"]).2 = []) :=
  claim_C6_thm envExisting [str "x", str "y"]

/-- C7 counterexample: a nonempty body containing the opening sentinel but
not the closing one (hence not the delimiter pair) is returned unchanged by
the upsert — neither a replacement nor the append of the navigation after
one newline that the claim requires for a body without the pair. -/
theorem claim_C7_counterexample :
    containsB closeTag openTag = false ∧
    upsertNavigationInBody (str "N") openTag = openTag ∧
    upsertNavigationInBody (str "N") openTag ≠ openTag ++ '\n' :: str "N" := by
  decide

/-- C7 (amended): for every nonempty body and dollar-free navigation string:
when the body has an opening marker with some closing marker at or after its
end, the entire greedy region from the first opening marker to the last such
closing marker is replaced by the navigation; when the body contains the
opening marker but no such closing marker, the body is returned unchanged;
otherwise the navigation is appended after exactly one newline. -/
theorem claim_C7_amended_thm (nav b : Str) (hb : b ≠ []) (hd : noDollar nav) :
    upsertNavigationInBody nav b =
      match tocMatchRegion b with
      | some (i, e) => b.take i ++ nav ++ b.drop e
      | none => if containsB openTag b then b else b ++ '\n' :: nav :=
  upsert_cases nav b hb hd

/-- C7 witness. -/
theorem claim_C7_witness :
    ((str "body" ≠ ([] : Str)) ∧ noDollar (str "nav")) ∧
    upsertNavigationInBody (str "nav") (str "body") =
      match tocMatchRegion (str "body") with
      | some (i, e) => (str "body").take i ++ str "nav" ++ (str "body").drop e
      | none =>
        if containsB openTag (str "body") then str "body"
        else str "body" ++ '\n' :: str "nav" :=
  ⟨⟨by decide, by decide⟩,
    claim_C7_amended_thm (str "nav") (str "body") (by decide) (by decide)⟩

/-- C8: range parsing maps the inclusive `<start>..<end>` form to the
half-open pair `[start, end + 1]`; in particular `"1..3"` parses to `(1, 4)`
and slicing with that pair selects exactly the entries at indices 1, 2, 3. -/
theorem claim_C8_thm (d1 d2 : Str) (h1 : d1 ≠ []) (h2 : d2 ≠ [])
    (hd1 : ∀ c ∈ d1, c.isDigit = true) (hd2 : ∀ c ∈ d2, c.isDigit = true) :
    rangeStringToRange (d1 ++ str ".." ++ d2) =
      some (parseDigits d1, parseDigits d2 + 1) ∧
    rangeStringToRange (str "1..3") = some (1, 4) ∧
    sliceList [str "b0", str "b1", str "b2", str "b3", str "b4"] 1 4 =
      [str "b1", str "b2", str "b3"] := by
  refine ⟨?_, by decide, by decide⟩
  have hs : d1 ++ str ".." ++ d2 = d1 ++ ('.' :: '.' :: d2) := by
    rw [List.append_assoc]
    rfl
  rw [hs]
  simp only [rangeStringToRange, findRangeMatch_exact d1 d2 h1 h2 hd1 hd2]

/-- C8 witness. -/
theorem claim_C8_witness :
    ((str "1" ≠ ([] : Str)) ∧ (str "3" ≠ ([] : Str)) ∧
      (∀ c ∈ str "1", c.isDigit = true) ∧ (∀ c ∈ str "3", c.isDigit = true)) ∧
    (rangeStringToRange (str "1" ++ str ".." ++ str "3") =
        some (parseDigits (str "1"), parseDigits (str "3") + 1) ∧
      rangeStringToRange (str "1..3") = some (1, 4) ∧
      sliceList [str "b0", str "b1", str "b2", str "b3", str "b4"] 1 4 =
        [str "b1", str "b2", str "b3"]) :=
  ⟨⟨by decide, by decide, by decide, by decide⟩,
    claim_C8_thm (str "1") (str "3") (by decide) (by decide) (by decide)
      (by decide)⟩

/-- C9: branch-index resolution returns the branch at the given position when
it exists, the combined branch for the literal `combined` index, and signals
the not-found error (exit code 3) when the index resolves to no branch —
stated for trains whose branch names (and combined name) are nonempty, since
the source's JS falsiness test also treats an empty name as not found. -/
theorem claim_C9_thm (branches : List Str) (combined : Option Str)
    (i : BranchIndex) (hne : ∀ b ∈ branches, b ≠ ([] : Str))
    (hc : ∀ c, combined = some c → c ≠ []) :
    branchNameAtIndex branches combined i =
      match i with
      | .idx n =>
        (match branches.get? n with
         | some b => Except.ok b
         | none => Except.error 3)
      | .combined =>
        (match combined with
         | some b => Except.ok b
         | none => Except.error 3) := by
  cases i with
  | idx n =>
    cases hg : branches.get? n with
    | none => simp only [branchNameAtIndex, hg]
    | some b =>
      have hbne : b ≠ [] := hne b (List.get?_mem hg)
      have hbe : b.isEmpty = false := by
        cases b with
        | nil => exact absurd rfl hbne
        | cons x t => rfl
      simp only [branchNameAtIndex, hg, hbe, Bool.false_eq_true, if_false]
  | combined =>
    cases combined with
    | none => rfl
    | some c =>
      have hcne : c ≠ [] := hc c rfl
      have hce : c.isEmpty = false := by
        cases c with
        | nil => exact absurd rfl hcne
        | cons x t => rfl
      simp only [branchNameAtIndex, hce, Bool.false_eq_true, if_false]

/-- C9 witness: the spec's own example, branches `[A, B, C]` with `C`
combined. -/
theorem claim_C9_witness :
    branchNameAtIndex [str "A", str "B", str "C"] (some (str "C"))
        (BranchIndex.idx 1) = Except.ok (str "B") ∧
    branchNameAtIndex [str "A", str "B", str "C"] (some (str "C"))
        BranchIndex.combined = Except.ok (str "C") ∧
    branchNameAtIndex [str "A", str "B", str "C"] (some (str "C"))
        (BranchIndex.idx 5) = Except.error 3 := by
  have hne : ∀ b ∈ [str "A", str "B", str "C"], b ≠ ([] : Str) := by decide
  have hc : ∀ c, (some (str "C") : Option Str) = some c → c ≠ [] := by
    intro c hcc
    cases hcc
    decide
  exact ⟨claim_C9_thm [str "A", str "B", str "C"] (some (str "C"))
      (BranchIndex.idx 1) hne hc,
    claim_C9_thm [str "A", str "B", str "C"] (some (str "C"))
      BranchIndex.combined hne hc,
    claim_C9_thm [str "A", str "B", str "C"] (some (str "C"))
      (BranchIndex.idx 5) hne hc⟩

/-- C10: for an empty (falsy) body the upsert returns exactly the navigation
string, with no separating newline prepended. -/
theorem claim_C10_thm (nav : Str) : upsertNavigationInBody nav [] = nav := rfl
